import Mathlib

set_option maxHeartbeats 1000000

/-!
Verification of the route-matching design specified for the Next-JS-Notes
repository.  The repository itself is a tutorial: it documents the
file-system routing convention (static, dynamic, catch-all and optional
catch-all segments) and ships example pages, but the route-resolution
algorithm lives in the external framework runtime and is not part of the
repository's own sources.  Following the specification (sections 2-7), the
route table builder, the matcher and the parameter binder are therefore
modelled here from the spec's words; the example pages that ARE in the
sources (the optional catch-all docs page and its required variant) are
embedded directly from their code.
-/

/-- Modelled from the spec: one path component of a route template
(spec section 3, "Segment").  The route-matching core is not implemented in
the repository sources, so the data model is taken from the specification. -/
inductive Segment where
  | static (lit : String)
  | dynamic (name : String)
  | catchAll (name : String)
  | optionalCatchAll (name : String)
deriving DecidableEq, Repr

/-- Modelled from the spec: a RouteTemplate is an ordered sequence of
Segments plus the identity of the page/handler it resolves to
(spec section 3). -/
structure RouteTemplate where
  id : Nat
  segments : List Segment
deriving DecidableEq, Repr

/-- Modelled from the spec: the value bound to one parameter — a single
string for a dynamic segment, an ordered sequence of strings for a
catch-all or optional catch-all segment (spec section 3, "MatchResult"). -/
inductive Binding where
  | single (value : String)
  | multi (values : List String)
deriving DecidableEq, Repr

/-- Modelled from the spec: the compiled, immutable collection of all route
templates (spec section 3, "RouteTable").  Matching consults the templates
in declaration order, which realises the first-declared-wins tie-break of
spec section 4.2. -/
structure RouteTable where
  templates : List RouteTemplate
deriving DecidableEq, Repr

/-- Modelled from the spec: either "no match" or a pair of resolved
template identity and parameter bindings, the bindings being a mapping
from parameter name to a Binding value kept in declared order
(spec section 3, "MatchResult"). -/
inductive MatchResult where
  | noMatch
  | matched (id : Nat) (bindings : List (String × Binding))
deriving DecidableEq, Repr

/-- Modelled from the spec: build-time error taxonomy of spec section 7 —
MalformedTemplate carries the offending template's identity and the violated
rule, DuplicateTemplate names both colliding templates. -/
inductive BuildError where
  | MalformedTemplate (id : Nat) (rule : String)
  | DuplicateTemplate (firstId : Nat) (secondId : Nat)
deriving DecidableEq, Repr

/-- Modelled from the spec: whether a segment is of a catch-all kind
(catch-all or optional catch-all), the kinds that must be last in a
template (spec section 3 invariant). -/
def Segment.isCatchAllKind : Segment → Bool
  | .catchAll _ => true
  | .optionalCatchAll _ => true
  | _ => false

/-- Modelled from the spec: the parameter name declared by a segment, if
any (static segments declare none). -/
def Segment.paramName? : Segment → Option String
  | .static _ => none
  | .dynamic n => some n
  | .catchAll n => some n
  | .optionalCatchAll n => some n

/-- Modelled from the spec: the catch-all-must-be-last invariant of spec
section 3 — every catch-all-kind segment is the final segment. -/
def catchAllLast : List Segment → Bool
  | [] => true
  | s :: rest => (!s.isCatchAllKind || rest.isEmpty) && catchAllLast rest

/-- Modelled from the spec: the unique-parameter-name invariant of spec
section 3 — no parameter name repeats within one template. -/
def distinctNames : List String → Bool
  | [] => true
  | n :: rest => !rest.contains n && distinctNames rest

/-- Modelled from the spec: structural identity of two segments — same
segment kind and same literal value, parameter names not compared
(spec section 4.1, DuplicateTemplate condition: "same segment kinds and
literal values in the same order"). -/
def Segment.structEq : Segment → Segment → Bool
  | .static a, .static b => a == b
  | .dynamic _, .dynamic _ => true
  | .catchAll _, .catchAll _ => true
  | .optionalCatchAll _, .optionalCatchAll _ => true
  | _, _ => false

/-- Modelled from the spec: structural identity of two segment sequences. -/
def segsStructEq : List Segment → List Segment → Bool
  | [], [] => true
  | a :: as, b :: bs => a.structEq b && segsStructEq as bs
  | _, _ => false

/-- Modelled from the spec: all MalformedTemplate violations of one
declaration (spec section 7: the builder reports all violations found). -/
def templateErrors (t : RouteTemplate) : List BuildError :=
  (if catchAllLast t.segments then []
   else [BuildError.MalformedTemplate t.id "catch-all-must-be-last"]) ++
  (if distinctNames (t.segments.filterMap Segment.paramName?) then []
   else [BuildError.MalformedTemplate t.id "unique-parameter-name"])

/-- Modelled from the spec: all DuplicateTemplate collisions among the
declarations, each error naming both colliding templates. -/
def duplicateErrors : List RouteTemplate → List BuildError
  | [] => []
  | t :: rest =>
      (rest.filter (fun u => segsStructEq t.segments u.segments)).map
        (fun u => BuildError.DuplicateTemplate t.id u.id) ++
      duplicateErrors rest

/-- Modelled from the spec: `build` of spec section 4.1 — validates every
declaration against the section 3 invariants and the structural-duplicate
constraint, reporting all violations; the list of every violation found
(spec section 7: the builder reports all violations, not just the first). -/
def buildErrors (ts : List RouteTemplate) : List BuildError :=
  (ts.map templateErrors).flatten ++ duplicateErrors ts

/-- Modelled from the spec: `build` of spec section 4.1 continued — on
success the immutable RouteTable, on any violation an error and no table
(spec section 7 propagation policy: no partially-valid table). -/
def build (ts : List RouteTemplate) : Except (List BuildError) RouteTable :=
  match buildErrors ts with
  | [] => Except.ok ⟨ts⟩
  | e :: es => Except.error (e :: es)

/-- Modelled from the spec: a template still in contention during a match
descent (spec section 4.2): the original template, its remaining segments
at the current depth, and the parameter bindings accumulated so far by the
parameter binder (spec section 4.3). -/
structure Contender where
  tmpl : RouteTemplate
  rest : List Segment
  acc : List (String × Binding)
deriving DecidableEq, Repr

/-- Modelled from the spec: precedence rule 1 — a contender survives the
static branch for component c exactly when its next segment is a static
literal equal to c. -/
def stepStatic (c : String) (ct : Contender) : Option Contender :=
  match ct.rest with
  | Segment.static lit :: rs => if lit = c then some ⟨ct.tmpl, rs, ct.acc⟩ else none
  | _ => none

/-- Modelled from the spec: precedence rule 2 — a contender whose next
segment is dynamic consumes exactly one component and binds it to the
segment's parameter name. -/
def stepDynamic (c : String) (ct : Contender) : Option Contender :=
  match ct.rest with
  | Segment.dynamic n :: rs =>
      some ⟨ct.tmpl, rs, ct.acc ++ [(n, Binding.single c)]⟩
  | _ => none

/-- Modelled from the spec: precedence rules 3 and 4 — a contender whose
next segment is a catch-all kind consumes all remaining components (here
at least one) as an ordered sequence and terminates matching. -/
def finishCatchAll (remaining : List String) (ct : Contender) : Option MatchResult :=
  match ct.rest with
  | Segment.catchAll n :: _ =>
      some (MatchResult.matched ct.tmpl.id (ct.acc ++ [(n, Binding.multi remaining)]))
  | Segment.optionalCatchAll n :: _ =>
      some (MatchResult.matched ct.tmpl.id (ct.acc ++ [(n, Binding.multi remaining)]))
  | _ => none

/-- Modelled from the spec: precedence rule 4, zero-components case — an
optional catch-all matches the empty remainder, binding an empty sequence
(the spec's section 9 open choice is resolved here to the empty-sequence
binding). -/
def finishOptionalEmpty (ct : Contender) : Option MatchResult :=
  match ct.rest with
  | [Segment.optionalCatchAll n] =>
      some (MatchResult.matched ct.tmpl.id (ct.acc ++ [(n, Binding.multi [])]))
  | _ => none

/-- Modelled from the spec: the depth-first, static-first descent of spec
section 4.2.  With components remaining: static branches first (rule 1),
then the dynamic branch (rule 2), then catch-all termination (rules 3-4);
with components exhausted: a template with no remaining segments (rule 5),
then an optional catch-all on the empty remainder (rule 4); otherwise
"no match" (rule 6).  Contender order is declaration order, realising
first-declared-wins. -/
def matchAux : List Contender → List String → MatchResult
  | cts, [] =>
    match cts.find? (fun ct => ct.rest.isEmpty) with
    | some ct => MatchResult.matched ct.tmpl.id ct.acc
    | none =>
      match cts.filterMap finishOptionalEmpty with
      | r :: _ => r
      | [] => MatchResult.noMatch
  | cts, c :: cs =>
    match cts.filterMap (stepStatic c) with
    | sct :: scts => matchAux (sct :: scts) cs
    | [] =>
      match cts.filterMap (stepDynamic c) with
      | dct :: dcts => matchAux (dct :: dcts) cs
      | [] =>
        match cts.filterMap (finishCatchAll (c :: cs)) with
        | r :: _ => r
        | [] => MatchResult.noMatch

/-- Modelled from the spec: the initial contender for one template — all
its segments remaining, no bindings accumulated. -/
def mkContender (t : RouteTemplate) : Contender := ⟨t, t.segments, []⟩

/-- Modelled from the spec: `match` of spec section 4.2 — resolve a request
path, already split into an ordered sequence of components, against a
RouteTable.  (Named matchRoute because `match` is reserved in Lean.) -/
def matchRoute (table : RouteTable) (components : List String) : MatchResult :=
  matchAux (table.templates.map mkContender) components

/-- Modelled from the spec: the value substituted for one parameterised
segment when generating a concrete request path from a template (spec
section 8, round-trip property): one string for a dynamic segment, a
sequence of strings for a catch-all kind. -/
inductive SegValue where
  | one (s : String)
  | many (ss : List String)
deriving DecidableEq, Repr

/-- Modelled from the spec: the component sequence obtained by substituting
concrete path values into a template's segments (spec section 8): a static
segment contributes its literal, a dynamic segment its single value, a
catch-all its nonempty sequence, an optional catch-all its (possibly
empty) sequence.  Defined only for well-shaped substitutions. -/
def substComponents : List Segment → List SegValue → Option (List String)
  | [], [] => some []
  | Segment.static lit :: segs, vs =>
      (substComponents segs vs).map (fun cs => lit :: cs)
  | Segment.dynamic _ :: segs, SegValue.one s :: vs =>
      (substComponents segs vs).map (fun cs => s :: cs)
  | [Segment.catchAll _], [SegValue.many ss] =>
      if ss.isEmpty then none else some ss
  | [Segment.optionalCatchAll _], [SegValue.many ss] => some ss
  | _, _ => none

/-- Modelled from the spec: the parameter bindings a round-trip substitution
is expected to produce — each parameterised segment paired with its
substituted value, in declared order. -/
def substBindings : List Segment → List SegValue → Option (List (String × Binding))
  | [], [] => some []
  | Segment.static _ :: segs, vs => substBindings segs vs
  | Segment.dynamic n :: segs, SegValue.one s :: vs =>
      (substBindings segs vs).map (fun bs => (n, Binding.single s) :: bs)
  | [Segment.catchAll n], [SegValue.many ss] =>
      if ss.isEmpty then none else some [(n, Binding.multi ss)]
  | [Segment.optionalCatchAll n], [SegValue.many ss] =>
      some [(n, Binding.multi ss)]
  | _, _ => none

/-- Modelled from the spec: the parameter binder contract of spec
section 4.3 as a checkable predicate — the binding list mirrors exactly the
parameter names declared in the segment sequence, in declared order, a
dynamic segment carrying a single string and a catch-all kind carrying a
sequence of strings. -/
def bindingsMatch : List Segment → List (String × Binding) → Bool
  | [], [] => true
  | Segment.static _ :: segs, bs => bindingsMatch segs bs
  | Segment.dynamic n :: segs, (m, Binding.single _) :: bs =>
      (n == m) && bindingsMatch segs bs
  | Segment.catchAll n :: segs, (m, Binding.multi _) :: bs =>
      (n == m) && bindingsMatch segs bs
  | Segment.optionalCatchAll n :: segs, (m, Binding.multi _) :: bs =>
      (n == m) && bindingsMatch segs bs
  | _, _ => false


/-- Modelled from the spec: fuel-indexed variant of the descent, used to
state the spec section 5 resource bound — `match` is terminating, bounded
by the number of path components, at most one trie descent per component.
Exhaustion (no components left) performs no descent and costs no fuel. -/
def matchAuxFuel : Nat → List Contender → List String → Option MatchResult
  | _, cts, [] => some (matchAux cts [])
  | 0, _, _ :: _ => none
  | fuel + 1, cts, c :: cs =>
    match cts.filterMap (stepStatic c) with
    | sct :: scts => matchAuxFuel fuel (sct :: scts) cs
    | [] =>
      match cts.filterMap (stepDynamic c) with
      | dct :: dcts => matchAuxFuel fuel (dct :: dcts) cs
      | [] =>
        match cts.filterMap (finishCatchAll (c :: cs)) with
        | r :: _ => some r
        | [] => some MatchResult.noMatch

/-- Modelled from the spec: one `match` call observed together with the
table as the caller sees it after the call returns (spec sections 3 and 5:
the RouteTable is read-only at request time and each call allocates only
its own local result). -/
def matchCall (table : RouteTable) (components : List String) :
    MatchResult × RouteTable :=
  (matchRoute table components, table)

/-- Embedded from src/my-app/src/app/docs/[[...slug]]/page.tsx: the
optional chaining slug?.join(' / ') — a string when the binding is
present, undefined (none) when it is absent. -/
def optJoin (sep : String) : Option (List String) → Option String
  | some l => some (String.intercalate sep l)
  | none => none

/-- Embedded from src/my-app/src/app/docs/[[...slug]]/page.tsx: the guard
slug?.length >= k — false when the binding is absent, because
undefined >= k evaluates to false. -/
def optLenGE (k : Nat) : Option (List String) → Bool
  | some l => k ≤ l.length
  | none => false

/-- Embedded from src/my-app/src/app/docs/[[...slug]]/page.tsx: rendering a
possibly-undefined expression inside JSX — undefined renders as nothing. -/
def renderText : Option String → String
  | some s => s
  | none => ""

/-- Embedded from src/my-app/src/app/docs/[[...slug]]/page.tsx (the
optional catch-all DocsPage): every access to the slug parameter is guarded
by optional chaining, so the page renders a line list for every params
value, including an absent slug. -/
def renderDocsOptional (slug : Option (List String)) : List String :=
  ["Docs Page",
   "Slug Array: " ++ renderText (optJoin " / " slug)] ++
  (if optLenGE 1 slug then ["Feature ID: " ++ (slug.getD []).getD 0 ""] else []) ++
  (if optLenGE 2 slug then ["Concept ID: " ++ (slug.getD []).getD 1 ""] else []) ++
  (if optLenGE 3 slug then ["Example ID: " ++ (slug.getD []).getD 2 ""] else [])

/-- Embedded from src/unnamed/part_003 lines 64-83 (the required catch-all
DocsPage variant): slug.join and slug.length dereference the binding
without a guard, so rendering is only defined when the binding is present
(dereferencing undefined throws, modelled as none). -/
def renderDocsRequired (slug : Option (List String)) : Option (List String) :=
  match slug with
  | none => none
  | some l =>
      some (["Docs Page",
             "Slug Array: " ++ String.intercalate " / " l] ++
        (if 1 ≤ l.length then ["Feature ID: " ++ l.getD 0 ""] else []) ++
        (if 2 ≤ l.length then ["Concept ID: " ++ l.getD 1 ""] else []) ++
        (if 3 ≤ l.length then ["Example ID: " ++ l.getD 2 ""] else []))


/-! Concrete templates used by witnesses and counterexamples. -/

/-- Modelled from the spec: the dynamic template user/[id] of scenario F
(also src/my-app/src/app/user/[id]/page.tsx). -/
def tUserDyn : RouteTemplate :=
  ⟨0, [Segment.static "user", Segment.dynamic "id"]⟩

/-- Modelled from the spec: the static template user/profile of
scenario F. -/
def tUserProfile : RouteTemplate :=
  ⟨1, [Segment.static "user", Segment.static "profile"]⟩

/-- Modelled from the spec: the scenario F table holding both the dynamic
and the static user templates. -/
def demoTable : RouteTable := ⟨[tUserDyn, tUserProfile]⟩


/-! Inversion lemmas for the matcher's step functions. -/

theorem stepStatic_some {c : String} {ct ct' : Contender}
    (h : stepStatic c ct = some ct') :
    ct'.tmpl = ct.tmpl ∧ ct'.acc = ct.acc ∧
      ct.rest = Segment.static c :: ct'.rest := by
  unfold stepStatic at h
  rcases hr : ct.rest with _ | ⟨s, rs⟩ <;> rw [hr] at h
  · simp at h
  · cases s with
    | static lit =>
      by_cases hl : lit = c
      · subst hl
        simp at h
        subst h
        simp [hr]
      · simp [hl] at h
    | dynamic n => simp at h
    | catchAll n => simp at h
    | optionalCatchAll n => simp at h

theorem stepDynamic_some {c : String} {ct ct' : Contender}
    (h : stepDynamic c ct = some ct') :
    ∃ n, ct.rest = Segment.dynamic n :: ct'.rest ∧
      ct'.tmpl = ct.tmpl ∧ ct'.acc = ct.acc ++ [(n, Binding.single c)] := by
  unfold stepDynamic at h
  rcases hr : ct.rest with _ | ⟨s, rs⟩ <;> rw [hr] at h
  · simp at h
  · cases s with
    | dynamic n =>
      simp at h
      subst h
      exact ⟨n, by simp⟩
    | static lit => simp at h
    | catchAll n => simp at h
    | optionalCatchAll n => simp at h

theorem finishCatchAll_some {remaining : List String} {ct : Contender}
    {r : MatchResult} (h : finishCatchAll remaining ct = some r) :
    ∃ n rs, (ct.rest = Segment.catchAll n :: rs ∨
             ct.rest = Segment.optionalCatchAll n :: rs) ∧
      r = MatchResult.matched ct.tmpl.id
            (ct.acc ++ [(n, Binding.multi remaining)]) := by
  unfold finishCatchAll at h
  rcases hr : ct.rest with _ | ⟨s, rs⟩ <;> rw [hr] at h
  · simp at h
  · cases s with
    | catchAll n =>
      simp at h
      exact ⟨n, rs, Or.inl rfl, h.symm⟩
    | optionalCatchAll n =>
      simp at h
      exact ⟨n, rs, Or.inr rfl, h.symm⟩
    | static lit => simp at h
    | dynamic n => simp at h

theorem finishOptionalEmpty_some {ct : Contender} {r : MatchResult}
    (h : finishOptionalEmpty ct = some r) :
    ∃ n, ct.rest = [Segment.optionalCatchAll n] ∧
      r = MatchResult.matched ct.tmpl.id (ct.acc ++ [(n, Binding.multi [])]) := by
  unfold finishOptionalEmpty at h
  rcases hr : ct.rest with _ | ⟨s, rs⟩ <;> rw [hr] at h
  · simp at h
  · cases s with
    | optionalCatchAll n =>
      cases rs with
      | nil => simp at h; exact ⟨n, rfl, h.symm⟩
      | cons a as => simp at h
    | static lit => simp at h
    | dynamic n => simp at h
    | catchAll n => simp at h

/-! Provenance: a successful match always names a template that entered the
descent still in contention. -/

theorem matchAux_matched_mem :
    ∀ (comps : List String) (cts : List Contender) (i : Nat)
      (bs : List (String × Binding)),
      matchAux cts comps = MatchResult.matched i bs →
      ∃ ct ∈ cts, ct.tmpl.id = i := by
  intro comps
  induction comps with
  | nil =>
    intro cts i bs h
    simp only [matchAux] at h
    cases hf : cts.find? (fun ct => ct.rest.isEmpty) with
    | some ct =>
      rw [hf] at h
      cases h
      exact ⟨ct, List.mem_of_find?_eq_some hf, rfl⟩
    | none =>
      rw [hf] at h
      cases hg : cts.filterMap finishOptionalEmpty with
      | nil => rw [hg] at h; cases h
      | cons r rs =>
        rw [hg] at h
        subst h
        have hmem : MatchResult.matched i bs ∈ cts.filterMap finishOptionalEmpty := by
          rw [hg]; exact List.mem_cons_self _ _
        rcases List.mem_filterMap.mp hmem with ⟨ct, hct, hc⟩
        rcases finishOptionalEmpty_some hc with ⟨n, _, hres⟩
        cases hres
        exact ⟨ct, hct, rfl⟩
  | cons c cs ih =>
    intro cts i bs h
    simp only [matchAux] at h
    cases hs : cts.filterMap (stepStatic c) with
    | cons sct scts =>
      rw [hs] at h
      rcases ih _ i bs h with ⟨ct', hmem', hid⟩
      rw [← hs] at hmem'
      rcases List.mem_filterMap.mp hmem' with ⟨ct, hct, hstep⟩
      exact ⟨ct, hct, by rw [(stepStatic_some hstep).1] at hid; exact hid⟩
    | nil =>
      rw [hs] at h
      cases hd : cts.filterMap (stepDynamic c) with
      | cons dct dcts =>
        rw [hd] at h
        rcases ih _ i bs h with ⟨ct', hmem', hid⟩
        rw [← hd] at hmem'
        rcases List.mem_filterMap.mp hmem' with ⟨ct, hct, hstep⟩
        rcases stepDynamic_some hstep with ⟨n, _, htm, _⟩
        exact ⟨ct, hct, by rw [htm] at hid; exact hid⟩
      | nil =>
        rw [hd] at h
        cases hc : cts.filterMap (finishCatchAll (c :: cs)) with
        | nil => rw [hc] at h; cases h
        | cons r rs =>
          rw [hc] at h
          subst h
          have hmem : MatchResult.matched i bs ∈
              cts.filterMap (finishCatchAll (c :: cs)) := by
            rw [hc]; exact List.mem_cons_self _ _
          rcases List.mem_filterMap.mp hmem with ⟨ct, hct, hfin⟩
          rcases finishCatchAll_some hfin with ⟨n, rs2, _, hres⟩
          cases hres
          exact ⟨ct, hct, rfl⟩

/-! Build-time validation lemmas. -/

theorem catchAllLast_tail {s : Segment} {rest : List Segment}
    (h : catchAllLast (s :: rest) = true) : catchAllLast rest = true := by
  simp only [catchAllLast, Bool.and_eq_true] at h
  exact h.2

theorem catchAllLast_no_inner :
    ∀ (xs : List Segment) (y : Segment) (ys : List Segment),
      catchAllLast (xs ++ y :: ys) = true →
      ∀ x ∈ xs, x.isCatchAllKind = false := by
  intro xs
  induction xs with
  | nil => intro y ys _ x hx; cases hx
  | cons a as ih =>
    intro y ys h x hx
    simp only [List.cons_append, catchAllLast, Bool.and_eq_true] at h
    rcases h with ⟨h1, h2⟩
    rcases List.mem_cons.mp hx with hax | hmem
    · subst hax
      simp only [List.append_eq] at h1
      cases as with
      | nil => simpa using h1
      | cons b bs => simpa using h1
    · exact ih y ys h2 x hmem

theorem build_ok_inv {ts : List RouteTemplate} {table : RouteTable}
    (h : build ts = Except.ok table) :
    buildErrors ts = [] ∧ table = ⟨ts⟩ := by
  unfold build at h
  cases hb : buildErrors ts with
  | nil =>
    rw [hb] at h
    cases h
    exact ⟨rfl, rfl⟩
  | cons e es => rw [hb] at h; cases h

theorem templateErrors_eq_nil {t : RouteTemplate}
    (h : templateErrors t = []) :
    catchAllLast t.segments = true ∧
      distinctNames (t.segments.filterMap Segment.paramName?) = true := by
  unfold templateErrors at h
  cases h1 : catchAllLast t.segments <;>
    cases h2 : distinctNames (t.segments.filterMap Segment.paramName?) <;>
      rw [h1, h2] at h <;> simp_all

theorem build_ok_valid {ts : List RouteTemplate} {table : RouteTable}
    (h : build ts = Except.ok table) :
    ∀ t ∈ ts, catchAllLast t.segments = true ∧
      distinctNames (t.segments.filterMap Segment.paramName?) = true := by
  intro t ht
  rcases build_ok_inv h with ⟨herr, _⟩
  unfold buildErrors at herr
  rcases List.append_eq_nil.mp herr with ⟨hflat, _⟩
  have hmem : templateErrors t ∈ ts.map templateErrors := List.mem_map_of_mem _ ht
  apply templateErrors_eq_nil
  cases he : templateErrors t with
  | nil => rfl
  | cons e es =>
    exfalso
    have : e ∈ (ts.map templateErrors).flatten :=
      List.mem_flatten.mpr ⟨templateErrors t, hmem, by rw [he]; exact List.mem_cons_self _ _⟩
    rw [hflat] at this
    cases this

theorem mem_buildErrors_of_templateError {ts : List RouteTemplate}
    {t : RouteTemplate} {e : BuildError} (ht : t ∈ ts)
    (he : e ∈ templateErrors t) : e ∈ buildErrors ts := by
  unfold buildErrors
  apply List.mem_append_left
  exact List.mem_flatten.mpr ⟨templateErrors t, List.mem_map_of_mem _ ht, he⟩

theorem mem_duplicateErrors :
    ∀ (xs : List RouteTemplate) (t : RouteTemplate) (ys : List RouteTemplate)
      (u : RouteTemplate), u ∈ ys → segsStructEq t.segments u.segments = true →
      BuildError.DuplicateTemplate t.id u.id ∈ duplicateErrors (xs ++ t :: ys) := by
  intro xs
  induction xs with
  | nil =>
    intro t ys u hu heq
    simp only [List.nil_append, duplicateErrors]
    apply List.mem_append_left
    exact List.mem_map_of_mem _ (List.mem_filter.mpr ⟨hu, heq⟩)
  | cons a as ih =>
    intro t ys u hu heq
    simp only [List.cons_append, duplicateErrors]
    exact List.mem_append_right _ (ih t ys u hu heq)

theorem build_error_of_mem {ts : List RouteTemplate} {e : BuildError}
    (h : e ∈ buildErrors ts) :
    ∃ errs, build ts = Except.error errs ∧ e ∈ errs := by
  unfold build
  cases hb : buildErrors ts with
  | nil => rw [hb] at h; cases h
  | cons e0 es => exact ⟨e0 :: es, rfl, hb ▸ h⟩

theorem isEmpty_true_eq_nil {α : Type} {l : List α} (h : l.isEmpty = true) :
    l = [] := by
  cases l with
  | nil => rfl
  | cons a as => simp [List.isEmpty] at h

theorem bindingsMatch_append :
    ∀ (a : List Segment) (b : List (String × Binding)) (c : List Segment)
      (d : List (String × Binding)),
      bindingsMatch a b = true → bindingsMatch c d = true →
      bindingsMatch (a ++ c) (b ++ d) = true := by
  intro a
  induction a with
  | nil =>
    intro b c d hab hcd
    cases b with
    | nil => simpa using hcd
    | cons p bs => simp [bindingsMatch] at hab
  | cons s as ih =>
    intro b c d hab hcd
    cases s with
    | static lit =>
      simp only [bindingsMatch] at hab
      simpa only [List.cons_append, bindingsMatch] using ih b c d hab hcd
    | dynamic n =>
      cases b with
      | nil => simp [bindingsMatch] at hab
      | cons p bs =>
        rcases p with ⟨m, bv⟩
        cases bv with
        | single s0 =>
          simp only [bindingsMatch, Bool.and_eq_true] at hab
          simp only [List.cons_append, bindingsMatch, Bool.and_eq_true]
          exact ⟨hab.1, ih bs c d hab.2 hcd⟩
        | multi s0 => simp [bindingsMatch] at hab
    | catchAll n =>
      cases b with
      | nil => simp [bindingsMatch] at hab
      | cons p bs =>
        rcases p with ⟨m, bv⟩
        cases bv with
        | multi s0 =>
          simp only [bindingsMatch, Bool.and_eq_true] at hab
          simp only [List.cons_append, bindingsMatch, Bool.and_eq_true]
          exact ⟨hab.1, ih bs c d hab.2 hcd⟩
        | single s0 => simp [bindingsMatch] at hab
    | optionalCatchAll n =>
      cases b with
      | nil => simp [bindingsMatch] at hab
      | cons p bs =>
        rcases p with ⟨m, bv⟩
        cases bv with
        | multi s0 =>
          simp only [bindingsMatch, Bool.and_eq_true] at hab
          simp only [List.cons_append, bindingsMatch, Bool.and_eq_true]
          exact ⟨hab.1, ih bs c d hab.2 hcd⟩
        | single s0 => simp [bindingsMatch] at hab

/-! Soundness of the descent: any successful match names a template from the
table, with bindings mirroring that template's declared parameters and every
catch-all value a suffix of the request components. -/

theorem matchAux_sound :
    ∀ (comps : List String) (cts : List Contender) (comps0 : List String)
      (S : List RouteTemplate) (i : Nat) (bs : List (String × Binding)),
      comps <:+ comps0 →
      (∀ ct ∈ cts, ct.tmpl ∈ S ∧ catchAllLast ct.rest = true ∧
        (∃ done, ct.tmpl.segments = done ++ ct.rest ∧
          bindingsMatch done ct.acc = true) ∧
        (∀ p ∈ ct.acc, ∀ vs, p.2 = Binding.multi vs → vs <:+ comps0)) →
      matchAux cts comps = MatchResult.matched i bs →
      ∃ t ∈ S, t.id = i ∧ bindingsMatch t.segments bs = true ∧
        ∀ p ∈ bs, ∀ vs, p.2 = Binding.multi vs → vs <:+ comps0 := by
  intro comps
  induction comps with
  | nil =>
    intro cts comps0 S i bs _ hinv h
    simp only [matchAux] at h
    cases hf : cts.find? (fun ct => ct.rest.isEmpty) with
    | some ct =>
      rw [hf] at h
      cases h
      have hmem := List.mem_of_find?_eq_some hf
      have hrest : ct.rest = [] := isEmpty_true_eq_nil (by simpa using List.find?_some hf)
      rcases hinv ct hmem with ⟨hS, _, ⟨done, hseg, hbm⟩, hacc⟩
      refine ⟨ct.tmpl, hS, rfl, ?_, hacc⟩
      rw [hseg, hrest, List.append_nil]
      exact hbm
    | none =>
      rw [hf] at h
      cases hg : cts.filterMap finishOptionalEmpty with
      | nil => rw [hg] at h; cases h
      | cons r rs =>
        rw [hg] at h
        subst h
        have hmemR : MatchResult.matched i bs ∈ cts.filterMap finishOptionalEmpty := by
          rw [hg]; exact List.mem_cons_self _ _
        rcases List.mem_filterMap.mp hmemR with ⟨ct, hct, hfin⟩
        rcases finishOptionalEmpty_some hfin with ⟨n, hrest, hres⟩
        injection hres with hi hbs
        rcases hinv ct hct with ⟨hS, _, ⟨done, hseg, hbm⟩, hacc⟩
        refine ⟨ct.tmpl, hS, hi.symm, ?_, ?_⟩
        · rw [hseg, hrest, hbs]
          exact bindingsMatch_append done ct.acc _ _ hbm (by simp [bindingsMatch])
        · rw [hbs]
          intro p hp vs hpv
          rcases List.mem_append.mp hp with hp1 | hp2
          · exact hacc p hp1 vs hpv
          · have hpe : p = (n, Binding.multi []) := by simpa using hp2
            rw [hpe] at hpv
            simp at hpv
            subst hpv
            exact List.nil_suffix
  | cons c cs ih =>
    intro cts comps0 S i bs hsuf hinv h
    have hsuf' : cs <:+ comps0 := (List.suffix_cons c cs).trans hsuf
    simp only [matchAux] at h
    cases hs : cts.filterMap (stepStatic c) with
    | cons sct scts =>
      rw [hs] at h
      refine ih (sct :: scts) comps0 S i bs hsuf' ?_ h
      intro ct' hct'
      rw [← hs] at hct'
      rcases List.mem_filterMap.mp hct' with ⟨ct, hct, hstep⟩
      rcases stepStatic_some hstep with ⟨htm, haccEq, hrest⟩
      rcases hinv ct hct with ⟨hS, hlast, ⟨done, hseg, hbm⟩, hacc⟩
      refine ⟨htm ▸ hS, ?_, ⟨done ++ [Segment.static c], ?_, ?_⟩, ?_⟩
      · rw [hrest] at hlast
        exact catchAllLast_tail hlast
      · rw [htm, hseg, hrest]
        simp
      · rw [haccEq]
        have := bindingsMatch_append done ct.acc [Segment.static c] [] hbm
          (by simp [bindingsMatch])
        simpa using this
      · rw [haccEq]
        exact hacc
    | nil =>
      rw [hs] at h
      cases hd : cts.filterMap (stepDynamic c) with
      | cons dct dcts =>
        rw [hd] at h
        refine ih (dct :: dcts) comps0 S i bs hsuf' ?_ h
        intro ct' hct'
        rw [← hd] at hct'
        rcases List.mem_filterMap.mp hct' with ⟨ct, hct, hstep⟩
        rcases stepDynamic_some hstep with ⟨n, hrest, htm, haccEq⟩
        rcases hinv ct hct with ⟨hS, hlast, ⟨done, hseg, hbm⟩, hacc⟩
        refine ⟨htm ▸ hS, ?_, ⟨done ++ [Segment.dynamic n], ?_, ?_⟩, ?_⟩
        · rw [hrest] at hlast
          exact catchAllLast_tail hlast
        · rw [htm, hseg, hrest]
          simp
        · rw [haccEq]
          exact bindingsMatch_append done ct.acc [Segment.dynamic n]
            [(n, Binding.single c)] hbm (by simp [bindingsMatch])
        · rw [haccEq]
          intro p hp vs hpv
          rcases List.mem_append.mp hp with hp1 | hp2
          · exact hacc p hp1 vs hpv
          · have hpe : p = (n, Binding.single c) := by simpa using hp2
            rw [hpe] at hpv
            simp at hpv
      | nil =>
        rw [hd] at h
        cases hc : cts.filterMap (finishCatchAll (c :: cs)) with
        | nil => rw [hc] at h; cases h
        | cons r rs =>
          rw [hc] at h
          subst h
          have hmemR : MatchResult.matched i bs ∈
              cts.filterMap (finishCatchAll (c :: cs)) := by
            rw [hc]; exact List.mem_cons_self _ _
          rcases List.mem_filterMap.mp hmemR with ⟨ct, hct, hfin⟩
          rcases finishCatchAll_some hfin with ⟨n, rs2, hrest, hres⟩
          injection hres with hi hbs
          rcases hinv ct hct with ⟨hS, hlast, ⟨done, hseg, hbm⟩, hacc⟩
          have hrs2 : rs2 = [] := by
            rcases hrest with hr | hr <;> rw [hr] at hlast <;>
              simp only [catchAllLast, Segment.isCatchAllKind, Bool.not_true,
                Bool.false_or, Bool.and_eq_true] at hlast <;>
              exact isEmpty_true_eq_nil hlast.1
          have hlastSeg : ct.rest = [Segment.catchAll n] ∨
              ct.rest = [Segment.optionalCatchAll n] := by
            rcases hrest with hr | hr
            · exact Or.inl (by rw [hr, hrs2])
            · exact Or.inr (by rw [hr, hrs2])
          refine ⟨ct.tmpl, hS, hi.symm, ?_, ?_⟩
          · rw [hseg, hbs]
            rcases hlastSeg with hr | hr <;> rw [hr] <;>
              exact bindingsMatch_append done ct.acc _ _ hbm (by simp [bindingsMatch])
          · rw [hbs]
            intro p hp vs hpv
            rcases List.mem_append.mp hp with hp1 | hp2
            · exact hacc p hp1 vs hpv
            · have hpe : p = (n, Binding.multi (c :: cs)) := by simpa using hp2
              rw [hpe] at hpv
              simp at hpv
              subst hpv
              exact hsuf

/-! Static-over-dynamic precedence: a template whose segment at a given
depth is dynamic can never win a request whose component at that depth
equals a static literal that a structurally parallel template declares
there, because the static branch is preferred at that depth. -/

theorem matchAux_static_pref :
    ∀ (pre : List Segment) (comps : List String) (cts : List Contender)
      (post : List Segment) (lit nm : String) (idB : Nat),
      (∀ s ∈ pre, s.isCatchAllKind = false) →
      (∃ ct ∈ cts, ct.rest = pre ++ Segment.static lit :: post) →
      (∀ ct ∈ cts, ct.tmpl.id = idB →
        ct.rest = pre ++ Segment.dynamic nm :: post) →
      comps[pre.length]? = some lit →
      ∀ bs, matchAux cts comps ≠ MatchResult.matched idB bs := by
  intro pre
  induction pre with
  | nil =>
    intro comps cts post lit nm idB _ hA hB hcomp bs h
    cases comps with
    | nil => simp at hcomp
    | cons c cs =>
      simp at hcomp
      subst hcomp
      simp only [matchAux] at h
      rcases hA with ⟨ctA, hctA, hrestA⟩
      simp only [List.nil_append] at hrestA
      have hstepA : stepStatic c ctA = some ⟨ctA.tmpl, post, ctA.acc⟩ := by
        unfold stepStatic
        rw [hrestA]
        simp
      have hmemA : (⟨ctA.tmpl, post, ctA.acc⟩ : Contender) ∈
          cts.filterMap (stepStatic c) :=
        List.mem_filterMap.mpr ⟨ctA, hctA, hstepA⟩
      cases hs : cts.filterMap (stepStatic c) with
      | nil => rw [hs] at hmemA; cases hmemA
      | cons sct scts =>
        rw [hs] at h
        rcases matchAux_matched_mem cs (sct :: scts) idB bs h with ⟨ct', hmem', hid⟩
        rw [← hs] at hmem'
        rcases List.mem_filterMap.mp hmem' with ⟨ct, hct, hstep⟩
        rcases stepStatic_some hstep with ⟨htm, _, hrest⟩
        have hrB := hB ct hct (by rw [← htm]; exact hid)
        simp only [List.nil_append] at hrB
        rw [hrB] at hrest
        cases hrest
  | cons s pre ih =>
    intro comps cts post lit nm idB hpre hA hB hcomp bs h
    cases comps with
    | nil => simp at hcomp
    | cons c cs =>
      simp only [List.length_cons, List.getElem?_cons_succ] at hcomp
      have hs0 : s.isCatchAllKind = false := hpre s (List.mem_cons_self _ _)
      have hpre2 : ∀ x ∈ pre, x.isCatchAllKind = false :=
        fun x hx => hpre x (List.mem_cons_of_mem _ hx)
      simp only [matchAux] at h
      cases hs : cts.filterMap (stepStatic c) with
      | cons sct scts =>
        rw [hs] at h
        cases s with
        | static l2 =>
          by_cases hl : l2 = c
          · subst hl
            refine ih cs (sct :: scts) post lit nm idB hpre2 ?_ ?_ hcomp bs h
            · rcases hA with ⟨ctA, hctA, hrestA⟩
              refine ⟨⟨ctA.tmpl, pre ++ Segment.static lit :: post, ctA.acc⟩,
                ?_, rfl⟩
              rw [← hs]
              refine List.mem_filterMap.mpr ⟨ctA, hctA, ?_⟩
              unfold stepStatic
              rw [hrestA]
              simp
            · intro ct' hmem' hid'
              rw [← hs] at hmem'
              rcases List.mem_filterMap.mp hmem' with ⟨ct, hct, hstep⟩
              rcases stepStatic_some hstep with ⟨htm, _, hrest⟩
              have hrB := hB ct hct (by rw [← htm]; exact hid')
              rw [hrB] at hrest
              simp only [List.cons_append] at hrest
              injection hrest with _ htail
              exact htail.symm
          · rcases matchAux_matched_mem cs (sct :: scts) idB bs h with
              ⟨ct', hmem', hid⟩
            rw [← hs] at hmem'
            rcases List.mem_filterMap.mp hmem' with ⟨ct, hct, hstep⟩
            rcases stepStatic_some hstep with ⟨htm, _, hrest⟩
            have hrB := hB ct hct (by rw [← htm]; exact hid)
            rw [hrB] at hrest
            simp only [List.cons_append] at hrest
            injection hrest with hhead _
            injection hhead with hll
            exact hl hll
        | dynamic d2 =>
          rcases matchAux_matched_mem cs (sct :: scts) idB bs h with
            ⟨ct', hmem', hid⟩
          rw [← hs] at hmem'
          rcases List.mem_filterMap.mp hmem' with ⟨ct, hct, hstep⟩
          rcases stepStatic_some hstep with ⟨htm, _, hrest⟩
          have hrB := hB ct hct (by rw [← htm]; exact hid)
          rw [hrB] at hrest
          simp at hrest
        | catchAll k =>
          rcases matchAux_matched_mem cs (sct :: scts) idB bs h with
            ⟨ct', hmem', hid⟩
          rw [← hs] at hmem'
          rcases List.mem_filterMap.mp hmem' with ⟨ct, hct, hstep⟩
          rcases stepStatic_some hstep with ⟨htm, _, hrest⟩
          have hrB := hB ct hct (by rw [← htm]; exact hid)
          rw [hrB] at hrest
          simp at hrest
        | optionalCatchAll k =>
          rcases matchAux_matched_mem cs (sct :: scts) idB bs h with
            ⟨ct', hmem', hid⟩
          rw [← hs] at hmem'
          rcases List.mem_filterMap.mp hmem' with ⟨ct, hct, hstep⟩
          rcases stepStatic_some hstep with ⟨htm, _, hrest⟩
          have hrB := hB ct hct (by rw [← htm]; exact hid)
          rw [hrB] at hrest
          simp at hrest
      | nil =>
        rw [hs] at h
        cases hd : cts.filterMap (stepDynamic c) with
        | cons dct dcts =>
          rw [hd] at h
          cases s with
          | dynamic d2 =>
            refine ih cs (dct :: dcts) post lit nm idB hpre2 ?_ ?_ hcomp bs h
            · rcases hA with ⟨ctA, hctA, hrestA⟩
              refine ⟨⟨ctA.tmpl, pre ++ Segment.static lit :: post,
                ctA.acc ++ [(d2, Binding.single c)]⟩, ?_, rfl⟩
              rw [← hd]
              refine List.mem_filterMap.mpr ⟨ctA, hctA, ?_⟩
              unfold stepDynamic
              rw [hrestA]
              simp
            · intro ct' hmem' hid'
              rw [← hd] at hmem'
              rcases List.mem_filterMap.mp hmem' with ⟨ct, hct, hstep⟩
              rcases stepDynamic_some hstep with ⟨n, hrest, htm, _⟩
              have hrB := hB ct hct (by rw [← htm]; exact hid')
              rw [hrB] at hrest
              simp only [List.cons_append] at hrest
              injection hrest with _ htail
              exact htail.symm
          | static l2 =>
            rcases matchAux_matched_mem cs (dct :: dcts) idB bs h with
              ⟨ct', hmem', hid⟩
            rw [← hd] at hmem'
            rcases List.mem_filterMap.mp hmem' with ⟨ct, hct, hstep⟩
            rcases stepDynamic_some hstep with ⟨n, hrest, htm, _⟩
            have hrB := hB ct hct (by rw [← htm]; exact hid)
            rw [hrB] at hrest
            simp at hrest
          | catchAll k =>
            rcases matchAux_matched_mem cs (dct :: dcts) idB bs h with
              ⟨ct', hmem', hid⟩
            rw [← hd] at hmem'
            rcases List.mem_filterMap.mp hmem' with ⟨ct, hct, hstep⟩
            rcases stepDynamic_some hstep with ⟨n, hrest, htm, _⟩
            have hrB := hB ct hct (by rw [← htm]; exact hid)
            rw [hrB] at hrest
            simp at hrest
          | optionalCatchAll k =>
            rcases matchAux_matched_mem cs (dct :: dcts) idB bs h with
              ⟨ct', hmem', hid⟩
            rw [← hd] at hmem'
            rcases List.mem_filterMap.mp hmem' with ⟨ct, hct, hstep⟩
            rcases stepDynamic_some hstep with ⟨n, hrest, htm, _⟩
            have hrB := hB ct hct (by rw [← htm]; exact hid)
            rw [hrB] at hrest
            simp at hrest
        | nil =>
          rw [hd] at h
          cases hc : cts.filterMap (finishCatchAll (c :: cs)) with
          | nil => rw [hc] at h; cases h
          | cons r rs =>
            rw [hc] at h
            subst h
            have hmemR : MatchResult.matched idB bs ∈
                cts.filterMap (finishCatchAll (c :: cs)) := by
              rw [hc]; exact List.mem_cons_self _ _
            rcases List.mem_filterMap.mp hmemR with ⟨ct, hct, hfin⟩
            rcases finishCatchAll_some hfin with ⟨n, rs2, hrest, hres⟩
            injection hres with hi _
            have hrB := hB ct hct hi.symm
            rcases hrest with hr | hr <;> rw [hrB] at hr <;>
              simp only [List.cons_append] at hr <;>
              injection hr with hhead _ <;> rw [hhead] at hs0 <;>
              simp [Segment.isCatchAllKind] at hs0

/-! Reduction lemmas for a descent with a single contender, used for the
round-trip and catch-all arity properties. -/

theorem matchAux_single_nil (t : RouteTemplate) (acc : List (String × Binding)) :
    matchAux [⟨t, [], acc⟩] [] = MatchResult.matched t.id acc := by
  simp [matchAux]

theorem matchAux_single_static (t : RouteTemplate) (lit : String)
    (segs : List Segment) (acc : List (String × Binding)) (cs : List String) :
    matchAux [⟨t, Segment.static lit :: segs, acc⟩] (lit :: cs) =
      matchAux [⟨t, segs, acc⟩] cs := by
  simp [matchAux, stepStatic]

theorem matchAux_single_static_miss (t : RouteTemplate) (lit c : String)
    (segs : List Segment) (acc : List (String × Binding)) (cs : List String)
    (h : lit ≠ c) :
    matchAux [⟨t, Segment.static lit :: segs, acc⟩] (c :: cs) =
      MatchResult.noMatch := by
  simp [matchAux, stepStatic, stepDynamic, finishCatchAll, h]

theorem matchAux_single_dynamic (t : RouteTemplate) (n c : String)
    (segs : List Segment) (acc : List (String × Binding)) (cs : List String) :
    matchAux [⟨t, Segment.dynamic n :: segs, acc⟩] (c :: cs) =
      matchAux [⟨t, segs, acc ++ [(n, Binding.single c)]⟩] cs := by
  simp [matchAux, stepStatic, stepDynamic]

theorem matchAux_single_catchAll (t : RouteTemplate) (n c : String)
    (rs : List Segment) (acc : List (String × Binding)) (cs : List String) :
    matchAux [⟨t, Segment.catchAll n :: rs, acc⟩] (c :: cs) =
      MatchResult.matched t.id (acc ++ [(n, Binding.multi (c :: cs))]) := by
  simp [matchAux, stepStatic, stepDynamic, finishCatchAll]

theorem matchAux_single_opt_cons (t : RouteTemplate) (n c : String)
    (rs : List Segment) (acc : List (String × Binding)) (cs : List String) :
    matchAux [⟨t, Segment.optionalCatchAll n :: rs, acc⟩] (c :: cs) =
      MatchResult.matched t.id (acc ++ [(n, Binding.multi (c :: cs))]) := by
  simp [matchAux, stepStatic, stepDynamic, finishCatchAll]

theorem matchAux_single_opt_nil (t : RouteTemplate) (n : String)
    (acc : List (String × Binding)) :
    matchAux [⟨t, [Segment.optionalCatchAll n], acc⟩] [] =
      MatchResult.matched t.id (acc ++ [(n, Binding.multi [])]) := by
  simp [matchAux, finishOptionalEmpty]

theorem matchAux_single_catchAll_nil (t : RouteTemplate) (n : String)
    (rs : List Segment) (acc : List (String × Binding)) :
    matchAux [⟨t, Segment.catchAll n :: rs, acc⟩] [] =
      MatchResult.noMatch := by
  simp [matchAux, finishOptionalEmpty]

/-! Round trip for a single-template descent: substituting concrete values
into a template's segments and matching the resulting components yields
that template with exactly the substituted bindings. -/

theorem roundTripAux :
    ∀ (segs : List Segment) (vs : List SegValue) (comps : List String)
      (bs : List (String × Binding)) (t : RouteTemplate)
      (acc : List (String × Binding)),
      substComponents segs vs = some comps →
      substBindings segs vs = some bs →
      matchAux [⟨t, segs, acc⟩] comps = MatchResult.matched t.id (acc ++ bs) := by
  intro segs
  induction segs with
  | nil =>
    intro vs comps bs t acc hc hb
    cases vs with
    | cons v vs2 => simp [substComponents] at hc
    | nil =>
      simp [substComponents] at hc
      simp [substBindings] at hb
      subst hc
      subst hb
      simp [matchAux_single_nil]
  | cons s segs ih =>
    intro vs comps bs t acc hc hb
    cases s with
    | static lit =>
      simp only [substComponents] at hc
      simp only [substBindings] at hb
      rcases Option.map_eq_some'.mp hc with ⟨cs, hcs, hcompEq⟩
      subst hcompEq
      rw [matchAux_single_static]
      exact ih vs cs bs t acc hcs hb
    | dynamic n =>
      cases vs with
      | nil => simp [substComponents] at hc
      | cons v vs2 =>
        cases v with
        | many ss => simp [substComponents] at hc
        | one s0 =>
          simp only [substComponents] at hc
          simp only [substBindings] at hb
          rcases Option.map_eq_some'.mp hc with ⟨cs, hcs, hcompEq⟩
          rcases Option.map_eq_some'.mp hb with ⟨bs2, hbs2, hbsEq⟩
          subst hcompEq
          subst hbsEq
          rw [matchAux_single_dynamic]
          rw [ih vs2 cs bs2 t (acc ++ [(n, Binding.single s0)]) hcs hbs2]
          simp
    | catchAll n =>
      cases segs with
      | cons s2 segs2 => simp [substComponents] at hc
      | nil =>
        cases vs with
        | nil => simp [substComponents] at hc
        | cons v vs2 =>
          cases vs2 with
          | cons w ws =>
            cases v with
            | one s0 => simp [substComponents] at hc
            | many ss => simp [substComponents] at hc
          | nil =>
            cases v with
            | one s0 => simp [substComponents] at hc
            | many ss =>
              cases ss with
              | nil => simp [substComponents] at hc
              | cons c0 cs0 =>
                simp [substComponents] at hc
                simp [substBindings] at hb
                subst hc
                subst hb
                exact matchAux_single_catchAll t n c0 [] acc cs0
    | optionalCatchAll n =>
      cases segs with
      | cons s2 segs2 => simp [substComponents] at hc
      | nil =>
        cases vs with
        | nil => simp [substComponents] at hc
        | cons v vs2 =>
          cases vs2 with
          | cons w ws =>
            cases v with
            | one s0 => simp [substComponents] at hc
            | many ss => simp [substComponents] at hc
          | nil =>
            cases v with
            | one s0 => simp [substComponents] at hc
            | many ss =>
              simp [substComponents] at hc
              simp [substBindings] at hb
              subst hc
              subst hb
              cases ss with
              | nil => exact matchAux_single_opt_nil t n acc
              | cons c0 cs0 => exact matchAux_single_opt_cons t n c0 [] acc cs0

/-! Substitution through a catch-all-free prefix, for the catch-all arity
property. -/

theorem substComponents_append_last :
    ∀ (pre : List Segment) (vs : List SegValue) (cs : List String)
      (lastSeg : Segment) (w : SegValue),
      (∀ s ∈ pre, s.isCatchAllKind = false) →
      substComponents pre vs = some cs →
      substComponents (pre ++ [lastSeg]) (vs ++ [w]) =
        (substComponents [lastSeg] [w]).map (fun ds => cs ++ ds) := by
  intro pre
  induction pre with
  | nil =>
    intro vs cs lastSeg w _ hc
    cases vs with
    | cons v vs2 => simp [substComponents] at hc
    | nil =>
      simp [substComponents] at hc
      subst hc
      cases hlw : substComponents [lastSeg] [w] <;> simp [hlw]
  | cons s pre ih =>
    intro vs cs lastSeg w hpre hc
    have hpre2 : ∀ x ∈ pre, x.isCatchAllKind = false :=
      fun x hx => hpre x (List.mem_cons_of_mem _ hx)
    cases s with
    | static lit =>
      simp only [substComponents] at hc
      rcases Option.map_eq_some'.mp hc with ⟨cs2, hcs2, hcsEq⟩
      subst hcsEq
      simp only [List.cons_append, substComponents, List.append_eq]
      rw [ih vs cs2 lastSeg w hpre2 hcs2]
      cases substComponents [lastSeg] [w] <;> simp
    | dynamic n =>
      cases vs with
      | nil => simp [substComponents] at hc
      | cons v vs2 =>
        cases v with
        | many ss => simp [substComponents] at hc
        | one s0 =>
          simp only [substComponents] at hc
          rcases Option.map_eq_some'.mp hc with ⟨cs2, hcs2, hcsEq⟩
          subst hcsEq
          simp only [List.cons_append, substComponents, List.append_eq]
          rw [ih vs2 cs2 lastSeg w hpre2 hcs2]
          cases substComponents [lastSeg] [w] <;> simp
    | catchAll k =>
      have := hpre (Segment.catchAll k) (List.mem_cons_self _ _)
      simp [Segment.isCatchAllKind] at this
    | optionalCatchAll k =>
      have := hpre (Segment.optionalCatchAll k) (List.mem_cons_self _ _)
      simp [Segment.isCatchAllKind] at this

theorem substBindings_append_last :
    ∀ (pre : List Segment) (vs : List SegValue) (bs : List (String × Binding))
      (lastSeg : Segment) (w : SegValue),
      (∀ s ∈ pre, s.isCatchAllKind = false) →
      substBindings pre vs = some bs →
      substBindings (pre ++ [lastSeg]) (vs ++ [w]) =
        (substBindings [lastSeg] [w]).map (fun ds => bs ++ ds) := by
  intro pre
  induction pre with
  | nil =>
    intro vs bs lastSeg w _ hb
    cases vs with
    | cons v vs2 => simp [substBindings] at hb
    | nil =>
      simp [substBindings] at hb
      subst hb
      cases hlw : substBindings [lastSeg] [w] <;> simp [hlw]
  | cons s pre ih =>
    intro vs bs lastSeg w hpre hb
    have hpre2 : ∀ x ∈ pre, x.isCatchAllKind = false :=
      fun x hx => hpre x (List.mem_cons_of_mem _ hx)
    cases s with
    | static lit =>
      simp only [substBindings] at hb
      simp only [List.cons_append, substBindings, List.append_eq]
      exact ih vs bs lastSeg w hpre2 hb
    | dynamic n =>
      cases vs with
      | nil => simp [substBindings] at hb
      | cons v vs2 =>
        cases v with
        | many ss => simp [substBindings] at hb
        | one s0 =>
          simp only [substBindings] at hb
          rcases Option.map_eq_some'.mp hb with ⟨bs2, hbs2, hbsEq⟩
          subst hbsEq
          simp only [List.cons_append, substBindings, List.append_eq]
          rw [ih vs2 bs2 lastSeg w hpre2 hbs2]
          cases substBindings [lastSeg] [w] <;> simp
    | catchAll k =>
      have := hpre (Segment.catchAll k) (List.mem_cons_self _ _)
      simp [Segment.isCatchAllKind] at this
    | optionalCatchAll k =>
      have := hpre (Segment.optionalCatchAll k) (List.mem_cons_self _ _)
      simp [Segment.isCatchAllKind] at this

/-! A required catch-all with zero components left at its position never
matches. -/

theorem matchAux_catchAll_short :
    ∀ (pre : List Segment) (comps : List String) (t : RouteTemplate)
      (acc : List (String × Binding)) (n : String),
      (∀ s ∈ pre, s.isCatchAllKind = false) →
      comps.length = pre.length →
      matchAux [⟨t, pre ++ [Segment.catchAll n], acc⟩] comps =
        MatchResult.noMatch := by
  intro pre
  induction pre with
  | nil =>
    intro comps t acc n _ hlen
    have hnil : comps = [] := by simpa using hlen
    subst hnil
    exact matchAux_single_catchAll_nil t n [] acc
  | cons s pre ih =>
    intro comps t acc n hpre hlen
    have hpre2 : ∀ x ∈ pre, x.isCatchAllKind = false :=
      fun x hx => hpre x (List.mem_cons_of_mem _ hx)
    cases comps with
    | nil => simp at hlen
    | cons c cs =>
      simp only [List.length_cons, Nat.succ.injEq] at hlen
      cases s with
      | static lit =>
        by_cases hl : lit = c
        · subst hl
          rw [List.cons_append, matchAux_single_static]
          exact ih cs t acc n hpre2 hlen
        · rw [List.cons_append, matchAux_single_static_miss _ _ _ _ _ _ hl]
      | dynamic m =>
        rw [List.cons_append, matchAux_single_dynamic]
        exact ih cs t (acc ++ [(m, Binding.single c)]) n hpre2 hlen
      | catchAll k =>
        have := hpre (Segment.catchAll k) (List.mem_cons_self _ _)
        simp [Segment.isCatchAllKind] at this
      | optionalCatchAll k =>
        have := hpre (Segment.optionalCatchAll k) (List.mem_cons_self _ _)
        simp [Segment.isCatchAllKind] at this

theorem matchAuxFuel_complete :
    ∀ (comps : List String) (cts : List Contender) (fuel : Nat),
      comps.length ≤ fuel →
      matchAuxFuel fuel cts comps = some (matchAux cts comps) := by
  intro comps
  induction comps with
  | nil =>
    intro cts fuel _
    cases fuel <;> rfl
  | cons c cs ih =>
    intro cts fuel hle
    cases fuel with
    | zero => simp at hle
    | succ f =>
      have hle2 : cs.length ≤ f := Nat.succ_le_succ_iff.mp hle
      simp only [matchAuxFuel, matchAux]
      cases hs : cts.filterMap (stepStatic c) with
      | cons sct scts => exact ih (sct :: scts) f hle2
      | nil =>
        cases hd : cts.filterMap (stepDynamic c) with
        | cons dct dcts => exact ih (dct :: dcts) f hle2
        | nil =>
          cases hc : cts.filterMap (finishCatchAll (c :: cs)) with
          | cons r rs => rfl
          | nil => rfl

/-! The claims. -/

/-- C1, counterexample to the claim as stated: the round-trip property does
not hold for every built RouteTable and every template in it.  With both
the dynamic template user/[id] and the static template user/profile in one
built table, substituting the concrete value "profile" into the dynamic
template's segments yields the components user, profile — but `match`
resolves the static template (identity 1) with no bindings, not the
dynamic template (identity 0) with the substituted binding, because of
static-over-dynamic precedence. -/
theorem claim_C1_counterexample :
    build [tUserDyn, tUserProfile] = Except.ok demoTable ∧
    substComponents tUserDyn.segments [SegValue.one "profile"] =
      some ["user", "profile"] ∧
    substBindings tUserDyn.segments [SegValue.one "profile"] =
      some [("id", Binding.single "profile")] ∧
    matchRoute demoTable ["user", "profile"] = MatchResult.matched 1 [] ∧
    ¬ matchRoute demoTable ["user", "profile"] =
        MatchResult.matched tUserDyn.id [("id", Binding.single "profile")] := by
  refine ⟨rfl, rfl, rfl, rfl, ?_⟩
  decide

/-- C1 (amended): the round-trip property holds for the table built from
the template alone — for every template and every well-shaped substitution
of concrete path values into its segments, `match` on the RouteTable built
from just that template returns that template's identity with bindings
equal to the substituted values.  In a table holding further templates, a
higher-precedence template (static over dynamic, dynamic over catch-all)
may capture the substituted component sequence instead, as the
counterexample shows. -/
theorem claim_C1_round_trip_single (t : RouteTemplate) (table : RouteTable)
    (vs : List SegValue) (comps : List String) (bs : List (String × Binding))
    (hbuild : build [t] = Except.ok table)
    (hcomps : substComponents t.segments vs = some comps)
    (hbinds : substBindings t.segments vs = some bs) :
    matchRoute table comps = MatchResult.matched t.id bs := by
  rcases build_ok_inv hbuild with ⟨_, htable⟩
  subst htable
  have h := roundTripAux t.segments vs comps bs t [] hcomps hbinds
  rw [List.nil_append] at h
  exact h

/-- C1 witness, scenario C: template products/[productId]/reviews/[reviewId]
with values 123 and 456 round-trips to bindings productId=123,
reviewId=456. -/
theorem claim_C1_round_trip_single_witness :
    matchRoute ⟨[⟨7, [Segment.static "products", Segment.dynamic "productId",
        Segment.static "reviews", Segment.dynamic "reviewId"]⟩]⟩
      ["products", "123", "reviews", "456"] =
    MatchResult.matched 7 [("productId", Binding.single "123"),
      ("reviewId", Binding.single "456")] :=
  claim_C1_round_trip_single
    ⟨7, [Segment.static "products", Segment.dynamic "productId",
      Segment.static "reviews", Segment.dynamic "reviewId"]⟩
    ⟨[⟨7, [Segment.static "products", Segment.dynamic "productId",
      Segment.static "reviews", Segment.dynamic "reviewId"]⟩]⟩
    [SegValue.one "123", SegValue.one "456"]
    ["products", "123", "reviews", "456"]
    [("productId", Binding.single "123"), ("reviewId", Binding.single "456")]
    rfl rfl rfl

/-- C2: static-over-dynamic precedence.  For every built RouteTable
containing a template with a static segment and a template with a dynamic
segment at the same depth with the same other segments, and every request
whose component at that depth equals the static literal, `match` never
selects the dynamic template: the static branch is preferred at that depth,
so the dynamic template leaves contention there. -/
theorem claim_C2_static_precedence (ts : List RouteTemplate)
    (table : RouteTable) (A B : RouteTemplate) (pre post : List Segment)
    (lit nm : String) (comps : List String)
    (hbuild : build ts = Except.ok table)
    (hmemA : A ∈ ts) (hmemB : B ∈ ts)
    (hsegA : A.segments = pre ++ Segment.static lit :: post)
    (hsegB : B.segments = pre ++ Segment.dynamic nm :: post)
    (hid : ∀ u ∈ ts, u.id = B.id → u = B)
    (hcomp : comps[pre.length]? = some lit) :
    ∀ bs, matchRoute table comps ≠ MatchResult.matched B.id bs := by
  rcases build_ok_inv hbuild with ⟨_, htable⟩
  subst htable
  have hpre : ∀ s ∈ pre, s.isCatchAllKind = false := by
    have hval := (build_ok_valid hbuild A hmemA).1
    rw [hsegA] at hval
    exact catchAllLast_no_inner pre (Segment.static lit) post hval
  intro bs
  show matchAux (ts.map mkContender) comps ≠ MatchResult.matched B.id bs
  apply matchAux_static_pref pre comps (ts.map mkContender) post lit nm B.id hpre
  · exact ⟨mkContender A, List.mem_map_of_mem _ hmemA,
      by simpa [mkContender] using hsegA⟩
  · intro ct hct hcid
    rcases List.mem_map.mp hct with ⟨u, hu, hctEq⟩
    subst hctEq
    have hub : u = B := hid u hu (by simpa [mkContender] using hcid)
    subst hub
    simpa [mkContender] using hsegB
  · exact hcomp

/-- C2 witness, scenario F: with user/[id] and user/profile both declared,
request user/profile matches the static template (identity 1) with no
bindings, and the theorem rules out the dynamic template (identity 0) with
the would-be binding id=profile. -/
theorem claim_C2_static_precedence_witness :
    matchRoute demoTable ["user", "profile"] = MatchResult.matched 1 [] ∧
    matchRoute demoTable ["user", "profile"] ≠
      MatchResult.matched tUserDyn.id [("id", Binding.single "profile")] :=
  ⟨rfl,
   claim_C2_static_precedence [tUserDyn, tUserProfile] demoTable
     tUserProfile tUserDyn [Segment.static "user"] [] "profile" "id"
     ["user", "profile"] rfl (by decide) (by decide) rfl rfl (by decide) rfl
     [("id", Binding.single "profile")]⟩

/-- C3: catch-all arity.  For every template ending in a required catch-all
segment, `match` on the table built from it returns "no match" when the
request supplies zero components at the catch-all's position (the prefix
consumes every component); for every template ending in an optional
catch-all segment, `match` succeeds on zero remaining components, binding
the parameter to an empty sequence (the spec section 9 open choice resolved
here to the empty-sequence binding). -/
theorem claim_C3_catch_all_arity (pre : List Segment) (n : String)
    (i j : Nat) (tA tB : RouteTable) (comps comps2 : List String)
    (vs : List SegValue) (bs : List (String × Binding))
    (hbA : build [⟨i, pre ++ [Segment.catchAll n]⟩] = Except.ok tA)
    (hbB : build [⟨j, pre ++ [Segment.optionalCatchAll n]⟩] = Except.ok tB)
    (hlen : comps.length = pre.length)
    (hsub : substComponents pre vs = some comps2)
    (hbs : substBindings pre vs = some bs) :
    matchRoute tA comps = MatchResult.noMatch ∧
    matchRoute tB comps2 =
      MatchResult.matched j (bs ++ [(n, Binding.multi [])]) := by
  have hpre : ∀ s ∈ pre, s.isCatchAllKind = false := by
    have hval := (build_ok_valid hbA ⟨i, pre ++ [Segment.catchAll n]⟩
      (List.mem_singleton.mpr rfl)).1
    exact catchAllLast_no_inner pre (Segment.catchAll n) [] (by simpa using hval)
  constructor
  · rcases build_ok_inv hbA with ⟨_, hta⟩
    subst hta
    show matchAux [⟨⟨i, pre ++ [Segment.catchAll n]⟩,
      pre ++ [Segment.catchAll n], []⟩] comps = MatchResult.noMatch
    exact matchAux_catchAll_short pre comps ⟨i, pre ++ [Segment.catchAll n]⟩
      [] n hpre hlen
  · rcases build_ok_inv hbB with ⟨_, htb⟩
    subst htb
    have hc2 : substComponents (pre ++ [Segment.optionalCatchAll n])
        (vs ++ [SegValue.many []]) = some comps2 := by
      rw [substComponents_append_last pre vs comps2 _ _ hpre hsub]
      simp [substComponents]
    have hb2 : substBindings (pre ++ [Segment.optionalCatchAll n])
        (vs ++ [SegValue.many []]) = some (bs ++ [(n, Binding.multi [])]) := by
      rw [substBindings_append_last pre vs bs _ _ hpre hbs]
      simp [substBindings]
    have h := roundTripAux (pre ++ [Segment.optionalCatchAll n])
      (vs ++ [SegValue.many []]) comps2 (bs ++ [(n, Binding.multi [])])
      ⟨j, pre ++ [Segment.optionalCatchAll n]⟩ [] hc2 hb2
    rw [List.nil_append] at h
    exact h

/-- C3 witness, scenarios D and E: request docs alone is "no match" for the
required catch-all template docs/[...slug], while the optional catch-all
template docs/[[...slug]] matches docs alone with slug bound to the empty
sequence. -/
theorem claim_C3_catch_all_arity_witness :
    matchRoute ⟨[⟨0, [Segment.static "docs", Segment.catchAll "slug"]⟩]⟩
      ["docs"] = MatchResult.noMatch ∧
    matchRoute ⟨[⟨1, [Segment.static "docs", Segment.optionalCatchAll "slug"]⟩]⟩
      ["docs"] = MatchResult.matched 1 [("slug", Binding.multi [])] :=
  claim_C3_catch_all_arity [Segment.static "docs"] "slug" 0 1
    ⟨[⟨0, [Segment.static "docs", Segment.catchAll "slug"]⟩]⟩
    ⟨[⟨1, [Segment.static "docs", Segment.optionalCatchAll "slug"]⟩]⟩
    ["docs"] ["docs"] [] [] rfl rfl rfl rfl rfl

/-- C4: build-time validation.  build fails with a MalformedTemplate error
naming the offending template and the violated rule for every declaration
breaking the catch-all-must-be-last or unique-parameter-name invariant,
fails with a DuplicateTemplate error naming both colliding templates when
two declarations are structurally identical, and on any error never
returns a RouteTable. -/
theorem claim_C4_build_validation (ts : List RouteTemplate) :
    (∀ t ∈ ts, catchAllLast t.segments = false →
      ∃ errs, build ts = Except.error errs ∧
        BuildError.MalformedTemplate t.id "catch-all-must-be-last" ∈ errs) ∧
    (∀ t ∈ ts,
      distinctNames (t.segments.filterMap Segment.paramName?) = false →
      ∃ errs, build ts = Except.error errs ∧
        BuildError.MalformedTemplate t.id "unique-parameter-name" ∈ errs) ∧
    (∀ (xs : List RouteTemplate) (t : RouteTemplate)
       (ys : List RouteTemplate) (u : RouteTemplate),
      ts = xs ++ t :: ys → u ∈ ys →
      segsStructEq t.segments u.segments = true →
      ∃ errs, build ts = Except.error errs ∧
        BuildError.DuplicateTemplate t.id u.id ∈ errs) ∧
    (∀ errs, build ts = Except.error errs →
      ∀ table, build ts ≠ Except.ok table) := by
  refine ⟨?_, ?_, ?_, ?_⟩
  · intro t ht hviol
    refine build_error_of_mem (mem_buildErrors_of_templateError ht ?_)
    simp [templateErrors, hviol]
  · intro t ht hviol
    refine build_error_of_mem (mem_buildErrors_of_templateError ht ?_)
    simp [templateErrors, hviol]
  · intro xs t ys u hts hu hst
    apply build_error_of_mem
    subst hts
    unfold buildErrors
    exact List.mem_append_right _ (mem_duplicateErrors xs t ys u hu hst)
  · intro errs herr table hok
    rw [herr] at hok
    cases hok

/-- C4 witness: a template with a catch-all before the end, a template with
a repeated parameter name, and two structurally identical templates all
make build fail with the corresponding error, and build never returns a
table for that declaration set. -/
theorem claim_C4_build_validation_witness :
    (∃ errs,
      build [⟨0, [Segment.catchAll "a", Segment.static "x"]⟩] =
        Except.error errs ∧
      BuildError.MalformedTemplate 0 "catch-all-must-be-last" ∈ errs) ∧
    (∃ errs,
      build [⟨1, [Segment.dynamic "n", Segment.dynamic "n"]⟩] =
        Except.error errs ∧
      BuildError.MalformedTemplate 1 "unique-parameter-name" ∈ errs) ∧
    (∃ errs,
      build [⟨2, [Segment.static "q", Segment.dynamic "z"]⟩,
             ⟨3, [Segment.static "q", Segment.dynamic "w"]⟩] =
        Except.error errs ∧
      BuildError.DuplicateTemplate 2 3 ∈ errs) :=
  ⟨(claim_C4_build_validation
      [⟨0, [Segment.catchAll "a", Segment.static "x"]⟩]).1
      ⟨0, [Segment.catchAll "a", Segment.static "x"]⟩ (by decide) rfl,
   (claim_C4_build_validation
      [⟨1, [Segment.dynamic "n", Segment.dynamic "n"]⟩]).2.1
      ⟨1, [Segment.dynamic "n", Segment.dynamic "n"]⟩ (by decide) rfl,
   (claim_C4_build_validation
      [⟨2, [Segment.static "q", Segment.dynamic "z"]⟩,
       ⟨3, [Segment.static "q", Segment.dynamic "w"]⟩]).2.2.1
      [] ⟨2, [Segment.static "q", Segment.dynamic "z"]⟩
      [⟨3, [Segment.static "q", Segment.dynamic "w"]⟩]
      ⟨3, [Segment.static "q", Segment.dynamic "w"]⟩
      rfl (by decide) rfl⟩

/-- C5: match totality.  For every built RouteTable and every well-formed
component sequence (ordered non-empty strings, root as the empty
sequence), `match` returns a MatchResult value: either the normal
"no match" result or a matched template with bindings — there is no error
path, by construction of the total function matchRoute. -/
theorem claim_C5_match_total (table : RouteTable) (comps : List String)
    (hwf : ∀ c ∈ comps, c ≠ "") :
    matchRoute table comps = MatchResult.noMatch ∨
    ∃ i bs, matchRoute table comps = MatchResult.matched i bs := by
  cases h : matchRoute table comps with
  | noMatch => exact Or.inl rfl
  | matched i bs => exact Or.inr ⟨i, bs, rfl⟩

/-- C5 witness: the scenario F table and request user/profile. -/
theorem claim_C5_match_total_witness :
    (∀ c ∈ ["user", "profile"], c ≠ "") ∧
    (matchRoute demoTable ["user", "profile"] = MatchResult.noMatch ∨
     ∃ i bs, matchRoute demoTable ["user", "profile"] =
       MatchResult.matched i bs) :=
  ⟨by decide, claim_C5_match_total demoTable ["user", "profile"] (by decide)⟩

/-- C6: binding shape and order.  For every successful match of a built
table, the binding names are exactly the parameter names declared in the
winning template's segments, in the template's declared order, with a
single string for every dynamic segment and a sequence of strings for
every catch-all kind (bindingsMatch); moreover every sequence bound by a
catch-all kind is a contiguous suffix of the request components, hence in
exactly the order those components appeared in the request. -/
theorem claim_C6_binding_shape (ts : List RouteTemplate) (table : RouteTable)
    (t : RouteTemplate) (comps : List String) (bs : List (String × Binding))
    (hbuild : build ts = Except.ok table) (hmem : t ∈ ts)
    (hid : ∀ u ∈ ts, u.id = t.id → u = t)
    (hmatch : matchRoute table comps = MatchResult.matched t.id bs) :
    bindingsMatch t.segments bs = true ∧
    ∀ p ∈ bs, ∀ vs, p.2 = Binding.multi vs → vs <:+ comps := by
  rcases build_ok_inv hbuild with ⟨_, htable⟩
  subst htable
  have hinv : ∀ ct ∈ ts.map mkContender, ct.tmpl ∈ ts ∧
      catchAllLast ct.rest = true ∧
      (∃ done, ct.tmpl.segments = done ++ ct.rest ∧
        bindingsMatch done ct.acc = true) ∧
      (∀ p ∈ ct.acc, ∀ vs, p.2 = Binding.multi vs → vs <:+ comps) := by
    intro ct hct
    rcases List.mem_map.mp hct with ⟨u, hu, hctEq⟩
    subst hctEq
    refine ⟨hu, (build_ok_valid hbuild u hu).1,
      ⟨[], by simp [mkContender], rfl⟩, ?_⟩
    intro p hp
    simp [mkContender] at hp
  have h := matchAux_sound comps (ts.map mkContender) comps ts t.id bs
    (List.suffix_refl comps) hinv hmatch
  rcases h with ⟨u, huS, huid, hbm, hsfx⟩
  have hut : u = t := hid u huS huid
  subst hut
  exact ⟨hbm, hsfx⟩

/-- C6 witness: the optional catch-all template docs/[[...slug]] on request
docs/a/b — the binding list is exactly slug with the sequence a, b, and
that sequence is a suffix of the request components. -/
theorem claim_C6_binding_shape_witness :
    bindingsMatch [Segment.static "docs", Segment.optionalCatchAll "slug"]
      [("slug", Binding.multi ["a", "b"])] = true ∧
    ∀ p ∈ [("slug", Binding.multi ["a", "b"])], ∀ vs,
      p.2 = Binding.multi vs → vs <:+ ["docs", "a", "b"] :=
  claim_C6_binding_shape
    [⟨1, [Segment.static "docs", Segment.optionalCatchAll "slug"]⟩]
    ⟨[⟨1, [Segment.static "docs", Segment.optionalCatchAll "slug"]⟩]⟩
    ⟨1, [Segment.static "docs", Segment.optionalCatchAll "slug"]⟩
    ["docs", "a", "b"] [("slug", Binding.multi ["a", "b"])]
    rfl (by decide) (by decide) rfl

/-- C7: determinism.  matchRoute is a pure function of the table and the
components: any two observations of `match` on the same table and the same
component sequence are equal — purity holds by construction of the
side-effect-free model. -/
theorem claim_C7_deterministic (table : RouteTable) (comps : List String)
    (r1 r2 : MatchResult)
    (h1 : matchRoute table comps = r1) (h2 : matchRoute table comps = r2) :
    r1 = r2 :=
  h1.symm.trans h2

/-- C7 witness: two calls on the scenario F table and request user/profile
agree. -/
theorem claim_C7_deterministic_witness :
    matchRoute demoTable ["user", "profile"] = MatchResult.matched 1 [] ∧
    MatchResult.matched 1 ([] : List (String × Binding)) =
      MatchResult.matched 1 ([] : List (String × Binding)) :=
  ⟨rfl, claim_C7_deterministic demoTable ["user", "profile"]
    (MatchResult.matched 1 []) (MatchResult.matched 1 []) rfl rfl⟩

/-- C8: termination bound.  The descent over a built table terminates
within one trie descent per path component: running the fuel-indexed
variant with exactly as much fuel as there are components always completes
and computes the very result of `match`. -/
theorem claim_C8_termination_bound (table : RouteTable)
    (comps : List String) :
    matchAuxFuel comps.length (table.templates.map mkContender) comps =
      some (matchRoute table comps) :=
  matchAuxFuel_complete comps (table.templates.map mkContender) comps.length
    (Nat.le_refl _)

/-- C9: table immutability (frame).  A match call leaves the table it is
given unchanged and delivers only its own local MatchResult: the observable
state after the call is exactly the original table paired with the pure
match result — immutability holds by construction of the read-only
model. -/
theorem claim_C9_table_immutable (table : RouteTable) (comps : List String) :
    (matchCall table comps).2 = table ∧
    (matchCall table comps).1 = matchRoute table comps :=
  ⟨rfl, rfl⟩

/-- C10: the repository's optional catch-all docs page guards every slug
access with optional chaining, so it renders for every params value — in
particular with the binding absent it renders the unconditional lines and
no guarded line; the unguarded required-catch-all variant dereferences the
binding and is only defined when the binding is present, on which inputs
the two render identically. -/
theorem claim_C10_optional_guarding :
    renderDocsOptional none = ["Docs Page", "Slug Array: "] ∧
    renderDocsRequired none = none ∧
    (∀ l, renderDocsRequired (some l) = some (renderDocsOptional (some l))) := by
  refine ⟨rfl, rfl, ?_⟩
  intro l
  simp [renderDocsOptional, renderDocsRequired, optJoin, optLenGE, renderText]
